import Mathlib

/-!
Verification of the `code-collector` script (a directory walker that
consolidates a project's tree listing and file contents into one Markdown
document) against its natural-language specification.

The Python source is shallowly embedded below: pure string helpers model
`os.path.basename` / `str.endswith` / `os.path.join`, a tree datatype models
the scanned filesystem, and the two traversals (`generate_tree` and the
`os.walk` content loop in `main`) become structurally faithful Lean
functions.  Fallible operations (`os.listdir`, reading a file) are modelled
with `Option` / `Except`.
-/

namespace CodeCollector

/-- Character-level helper for `basename`: scans the character list, keeping
the run of characters seen since the most recent `'/'` (POSIX
`os.path.basename` returns everything after the last slash). -/
def basenameAux : List Char → List Char → List Char
  | [], acc => acc
  | c :: cs, acc => if c = '/' then basenameAux cs [] else basenameAux cs (acc ++ [c])

/-- Model of `os.path.basename` on POSIX: the substring after the last `'/'`
(the whole string when it contains no slash). -/
def basename (p : String) : String :=
  ⟨basenameAux p.data []⟩

/-- Model of Python's `str.endswith`: a raw character-suffix test on the
whole string. -/
def strEndsWith (p s : String) : Bool :=
  decide (s.data <:+ p.data)

/-- Model of `os.path.join(current_rel, entry)` as used by the script: both
traversals only ever join a (possibly empty) relative path with a single
entry name, so the result is `entry` when the left part is empty and
`current_rel ++ "/" ++ entry` otherwise. -/
def joinRel (r n : String) : String :=
  if r = "" then n else r ++ "/" ++ n

/-- Embedding of `should_ignore(rel_path, spec, extra_ignore_files,
extra_ignore_extensions)` (source lines 20-35).  The gitignore matcher is
abstracted as an optional boolean predicate on the relative path; `None`
models a missing `.gitignore`.  (Python's `if spec and spec.match_file(...)`
also treats an *empty* compiled spec as falsy, but an empty spec matches no
path, so the two readings define the same function.)  The two name/suffix
sets are modelled as lists with membership semantics. -/
def should_ignore (rel_path : String) (spec : Option (String → Bool))
    (extra_ignore_files : List String) (extra_ignore_extensions : List String) : Bool :=
  if extra_ignore_files.contains (basename rel_path) then true
  else if extra_ignore_extensions.any (fun ext => strEndsWith rel_path ext) then true
  else
    match spec with
    | some m => m rel_path
    | none => false

/-- Convenience form of the matcher check: `True` exactly when a matcher is
present and matches the path, mirroring `spec and spec.match_file(rel_path)`. -/
def matcherHits (spec : Option (String → Bool)) (rel_path : String) : Bool :=
  match spec with
  | some m => m rel_path
  | none => false

theorem contains_true_iff (l : List String) (a : String) :
    l.contains a = true ↔ a ∈ l := by
  simp [List.contains]

theorem should_ignore_eq_or (rel_path : String) (spec : Option (String → Bool))
    (nset eset : List String) :
    should_ignore rel_path spec nset eset =
      (nset.contains (basename rel_path) ||
        eset.any (fun ext => strEndsWith rel_path ext) ||
        matcherHits spec rel_path) := by
  unfold should_ignore matcherHits
  split
  next h₁ =>
    rw [h₁]
    exact (Bool.true_or _).symm
  next h₁ =>
    have e₁ : nset.contains (basename rel_path) = false := by
      revert h₁; cases nset.contains (basename rel_path) <;> simp
    split
    next h₂ =>
      rw [e₁, h₂]
      rw [Bool.false_or]
      exact (Bool.true_or _).symm
    next h₂ =>
      have e₂ : eset.any (fun ext => strEndsWith rel_path ext) = false := by
        revert h₂; cases eset.any (fun ext => strEndsWith rel_path ext) <;> simp
      rw [e₁, e₂, Bool.false_or, Bool.false_or]

/-- Claim C1: `should_ignore p m N E` is true iff the basename of `p` is in
`N`, or `p` ends with a member of `E`, or the matcher `m` is present and
matches `p`; and since the three checks combine by logical OR, any
reordering of them (here: all six orders, stated as Boolean disjunctions)
yields the same function. -/
theorem should_ignore_spec (p : String) (spec : Option (String → Bool))
    (nset eset : List String) :
    (should_ignore p spec nset eset = true ↔
      (basename p ∈ nset ∨ (∃ ext ∈ eset, strEndsWith p ext = true) ∨
        ∃ m, spec = some m ∧ m p = true)) ∧
    should_ignore p spec nset eset =
      (nset.contains (basename p) || eset.any (fun ext => strEndsWith p ext) ||
        matcherHits spec p) ∧
    should_ignore p spec nset eset =
      (eset.any (fun ext => strEndsWith p ext) || nset.contains (basename p) ||
        matcherHits spec p) ∧
    should_ignore p spec nset eset =
      (matcherHits spec p || nset.contains (basename p) ||
        eset.any (fun ext => strEndsWith p ext)) ∧
    should_ignore p spec nset eset =
      (matcherHits spec p || eset.any (fun ext => strEndsWith p ext) ||
        nset.contains (basename p)) ∧
    should_ignore p spec nset eset =
      (nset.contains (basename p) || matcherHits spec p ||
        eset.any (fun ext => strEndsWith p ext)) ∧
    should_ignore p spec nset eset =
      (eset.any (fun ext => strEndsWith p ext) || matcherHits spec p ||
        nset.contains (basename p)) := by
  have base := should_ignore_eq_or p spec nset eset
  refine ⟨?_, base, ?_, ?_, ?_, ?_, ?_⟩
  · rw [base]
    constructor
    · intro h
      rcases Bool.or_eq_true_iff.mp h with h' | hm
      · rcases Bool.or_eq_true_iff.mp h' with hn | he
        · exact Or.inl ((contains_true_iff nset (basename p)).mp hn)
        · refine Or.inr (Or.inl ?_)
          rcases List.any_eq_true.mp he with ⟨ext, hext, hends⟩
          exact ⟨ext, hext, hends⟩
      · refine Or.inr (Or.inr ?_)
        unfold matcherHits at hm
        cases spec with
        | none => simp at hm
        | some m => exact ⟨m, rfl, hm⟩
    · intro h
      rcases h with hn | ⟨ext, hext, hends⟩ | ⟨m, hm, hmp⟩
      · exact Bool.or_eq_true_iff.mpr (Or.inl (Bool.or_eq_true_iff.mpr
          (Or.inl ((contains_true_iff nset (basename p)).mpr hn))))
      · exact Bool.or_eq_true_iff.mpr (Or.inl (Bool.or_eq_true_iff.mpr
          (Or.inr (List.any_eq_true.mpr ⟨ext, hext, hends⟩))))
      · refine Bool.or_eq_true_iff.mpr (Or.inr ?_)
        subst hm
        exact hmp
  all_goals rw [base]
  · cases nset.contains (basename p) <;>
      cases eset.any (fun ext => strEndsWith p ext) <;> cases matcherHits spec p <;> rfl
  · cases nset.contains (basename p) <;>
      cases eset.any (fun ext => strEndsWith p ext) <;> cases matcherHits spec p <;> rfl
  · cases nset.contains (basename p) <;>
      cases eset.any (fun ext => strEndsWith p ext) <;> cases matcherHits spec p <;> rfl
  · cases nset.contains (basename p) <;>
      cases eset.any (fun ext => strEndsWith p ext) <;> cases matcherHits spec p <;> rfl
  · cases nset.contains (basename p) <;>
      cases eset.any (fun ext => strEndsWith p ext) <;> cases matcherHits spec p <;> rfl

/-- Claim C6: whenever the relative path ends with some member of the
extension set, `should_ignore` returns `true`, for every name set and every
matcher (present or absent, matching or not): the suffix test applies to the
whole relative path, at any directory depth. -/
theorem should_ignore_of_extension (p : String) (spec : Option (String → Bool))
    (nset eset : List String)
    (h : ∃ ext ∈ eset, strEndsWith p ext = true) :
    should_ignore p spec nset eset = true := by
  rw [should_ignore_eq_or]
  rcases h with ⟨ext, hmem, hends⟩
  have : eset.any (fun ext => strEndsWith p ext) = true :=
    List.any_eq_true.mpr ⟨ext, hmem, hends⟩
  simp [this]

/-- Witness for C6: a nested path ending in `".log"` is ignored even though
the (present) matcher matches nothing and the name set is empty. -/
theorem should_ignore_of_extension_witness :
    (∃ ext ∈ [".log"], strEndsWith "deep/dir/file.log" ext = true) ∧
      should_ignore "deep/dir/file.log" (some fun _ => false) [] [".log"] = true := by
  refine ⟨⟨".log", by decide, by decide⟩, ?_⟩
  exact should_ignore_of_extension "deep/dir/file.log" (some fun _ => false) [] [".log"]
    ⟨".log", by decide, by decide⟩

/-- Claim C10: the extension test is a raw character-suffix comparison with
no dot or path-separator boundary: for every suffix `s` in the extension set
and every string `q`, the path `q ++ s` is ignored, whatever the name set
and the matcher. -/
theorem should_ignore_raw_suffix (q s : String) (spec : Option (String → Bool))
    (nset eset : List String) (h : s ∈ eset) :
    should_ignore (q ++ s) spec nset eset = true := by
  apply should_ignore_of_extension
  refine ⟨s, h, ?_⟩
  unfold strEndsWith
  rw [decide_eq_true_iff, String.data_append]
  exact List.suffix_append q.data s.data

/-- Witness for C10: with `"log"` (no leading dot) in the extension set, the
file `"catalog"` is ignored, because `"catalog" = "cata" ++ "log"`. -/
theorem should_ignore_raw_suffix_witness :
    "log" ∈ ["log"] ∧ should_ignore ("cata" ++ "log") none [] ["log"] = true :=
  ⟨by decide, should_ignore_raw_suffix "cata" "log" none [] ["log"] (by decide)⟩

/-- Model of the scanned filesystem.  A directory entry is either a regular
file, whose read attempt yields its text (`Except.ok`) or an error message
(`Except.error`, modelling an I/O or decode failure), or a directory, whose
`listing` is `none` when `os.listdir` fails on it and `some children`
otherwise. -/
inductive FSEntry : Type where
  | file (nm : String) (content : Except String String) : FSEntry
  | dir (nm : String) (listing : Option (List FSEntry)) : FSEntry

/-- Name of a directory entry (what `os.listdir` reports). -/
def FSEntry.name : FSEntry → String
  | .file nm _ => nm
  | .dir nm _ => nm

/-- Whether an entry is a directory (`os.path.isdir`). -/
def FSEntry.isDir : FSEntry → Bool
  | .file _ _ => false
  | .dir _ _ => true

/-- Computable code-point comparison on character lists, modelling Python's
string comparison (`a <= b` in the sense used by `sorted`): compare
elementwise, the first differing character decides, a proper prefix sorts
first. -/
def charsLE : List Char → List Char → Bool
  | [], _ => true
  | _ :: _, [] => false
  | a :: as, b :: bs => if a = b then charsLE as bs else decide (a < b)

/-- Python string comparison, lifted to `String` through its character
list. -/
def nameLE (a b : String) : Bool := charsLE a.data b.data

theorem charsLE_total : ∀ as bs : List Char, charsLE as bs = true ∨ charsLE bs as = true
  | [], _ => Or.inl rfl
  | _ :: _, [] => Or.inr rfl
  | a :: as, b :: bs => by
    by_cases hab : a = b
    · subst hab
      rcases charsLE_total as bs with h | h
      · exact Or.inl (by simpa [charsLE] using h)
      · exact Or.inr (by simpa [charsLE] using h)
    · rcases lt_trichotomy a b with h | h | h
      · exact Or.inl (by simp [charsLE, hab, h])
      · exact absurd h hab
      · exact Or.inr (by simp [charsLE, Ne.symm hab, h])

theorem charsLE_trans : ∀ as bs cs : List Char,
    charsLE as bs = true → charsLE bs cs = true → charsLE as cs = true
  | [], _, _ => fun _ _ => rfl
  | _ :: _, [], _ => fun h _ => by simp [charsLE] at h
  | _ :: _, _ :: _, [] => fun _ h => by simp [charsLE] at h
  | a :: as, b :: bs, c :: cs => fun h₁ h₂ => by
    by_cases hab : a = b <;> by_cases hbc : b = c
    · subst hab; subst hbc
      simp only [charsLE, if_pos rfl] at h₁ h₂ ⊢
      exact charsLE_trans as bs cs h₁ h₂
    · subst hab
      simp only [charsLE, if_pos rfl, if_neg hbc] at h₂ ⊢
      exact h₂
    · subst hbc
      simp only [charsLE, if_pos rfl, if_neg hab] at h₁ ⊢
      exact h₁
    · simp only [charsLE, if_neg hab, if_neg hbc, decide_eq_true_iff] at h₁ h₂
      have hac : a < c := lt_trans h₁ h₂
      simp only [charsLE, if_neg (ne_of_lt hac), decide_eq_true_iff]
      exact hac

theorem charsLE_lt_of_ne : ∀ as bs : List Char,
    charsLE as bs = true → as ≠ bs → List.Lex (· < ·) as bs
  | [], [] => fun _ hne => absurd rfl hne
  | [], _ :: _ => fun _ _ => List.Lex.nil
  | _ :: _, [] => fun h _ => by simp [charsLE] at h
  | a :: as, b :: bs => fun h hne => by
    by_cases hab : a = b
    · subst hab
      have htail : as ≠ bs := fun he => hne (by rw [he])
      have h' : charsLE as bs = true := by simpa [charsLE] using h
      exact List.Lex.cons (charsLE_lt_of_ne as bs h' htail)
    · have hlt : a < b := by
        have := h
        simp only [charsLE, if_neg hab, decide_eq_true_iff] at this
        exact this
      exact List.Lex.rel hlt

theorem nameLT_of_le_ne (a b : String) (h : nameLE a b = true) (hne : a ≠ b) :
    a < b := by
  rw [String.lt_iff_toList_lt]
  have hdata : a.data ≠ b.data := fun hd => hne (by cases a; cases b; simp_all)
  exact charsLE_lt_of_ne a.data b.data h hdata

/-- Comparison used by `sorted(os.listdir(...))`: entries compare by their
names (Python compares the listed name strings by code point). -/
def entLE (a b : FSEntry) : Prop := nameLE a.name b.name = true

instance : DecidableRel entLE :=
  fun a b => inferInstanceAs (Decidable (nameLE a.name b.name = true))

instance : IsTotal FSEntry entLE :=
  ⟨fun a b => charsLE_total a.name.data b.name.data⟩

instance : IsTrans FSEntry entLE :=
  ⟨fun a b c h₁ h₂ => charsLE_trans a.name.data b.name.data c.name.data h₁ h₂⟩

/-- Model of `sorted(os.listdir(full_path))` (source line 83): the listing
sorted by name. -/
def sortEntries (l : List FSEntry) : List FSEntry :=
  List.insertionSort entLE l

/-- The filtering loop of `generate_tree` (source lines 86-93): sort the
listing, then keep exactly the entries whose relative path does not satisfy
`should_ignore`. -/
def filteredEntries (spec : Option (String → Bool)) (nset eset : List String)
    (entries : List FSEntry) (rel : String) : List FSEntry :=
  (sortEntries entries).filter
    (fun e => !(should_ignore (joinRel rel e.name) spec nset eset))

theorem mem_of_mem_sortEntries {l : List FSEntry} {e : FSEntry}
    (h : e ∈ sortEntries l) : e ∈ l :=
  (List.perm_insertionSort entLE l).mem_iff.mp h

theorem mem_of_mem_filteredEntries {spec : Option (String → Bool)}
    {nset eset : List String} {entries : List FSEntry} {rel : String} {e : FSEntry}
    (h : e ∈ filteredEntries spec nset eset entries rel) : e ∈ entries :=
  mem_of_mem_sortEntries (List.mem_of_mem_filter h)

theorem sizeOf_lt_of_mem_enum_filtered {spec : Option (String → Bool)}
    {nset eset : List String} {entries : List FSEntry} {rel : String}
    {i : Nat} {nm : String} {listing : Option (List FSEntry)}
    (h : (i, FSEntry.dir nm listing) ∈ (filteredEntries spec nset eset entries rel).enum) :
    sizeOf listing < sizeOf (some entries : Option (List FSEntry)) := by
  have hmem : FSEntry.dir nm listing ∈ filteredEntries spec nset eset entries rel := by
    have hg := List.mk_mem_enum_iff_getElem?.mp h
    rcases List.getElem?_eq_some_iff.mp hg with ⟨hlt, hget⟩
    exact hget ▸ List.getElem_mem hlt
  have h₁ : FSEntry.dir nm listing ∈ entries := mem_of_mem_filteredEntries hmem
  have h₂ : sizeOf (FSEntry.dir nm listing) < sizeOf entries :=
    List.sizeOf_lt_of_mem h₁
  have h₃ : sizeOf listing < sizeOf (FSEntry.dir nm listing) := by
    simp only [FSEntry.dir.sizeOf_spec]
    omega
  have h₄ : sizeOf (some entries : Option (List FSEntry)) = 1 + sizeOf entries := by
    simp
  omega

/-- Embedding of the recursive `generate_tree(root, current_rel, prefix)`
(source lines 80-105).  A `none` listing models the `except` branch of
`os.listdir` failing, which returns `[]`.  Otherwise the listing is sorted,
filtered through `should_ignore`, and each surviving entry contributes its
own line (prefix, connector, name) followed by the recursively rendered
lines of its own listing when it is a directory.  The connector is
`"└── "` for the last surviving index and `"├── "` otherwise, and the
prefix handed to a recursive call grows by `"    "` or `"│   "`
accordingly. -/
def renderDir (spec : Option (String → Bool)) (nset eset : List String) :
    Option (List FSEntry) → String → String → List String
  | none, _, _ => []
  | some entries, rel, pfx =>
    let kept := filteredEntries spec nset eset entries rel
    (kept.enum.attach.map (fun x =>
      match x with
      | ⟨(i, FSEntry.file nm _), _⟩ =>
          [pfx ++ (if i = kept.length - 1 then "└── " else "├── ") ++ nm]
      | ⟨(i, FSEntry.dir nm listing), _⟩ =>
          (pfx ++ (if i = kept.length - 1 then "└── " else "├── ") ++ nm) ::
            renderDir spec nset eset listing (joinRel rel nm)
              (pfx ++ (if i = kept.length - 1 then "    " else "│   ")))).flatten
termination_by listing _ _ => sizeOf listing
decreasing_by
  exact sizeOf_lt_of_mem_enum_filtered (by assumption)

/-- Contribution of one surviving entry (at index `i` of `n` surviving
entries) to the tree listing: its own line, then, for a directory, the
recursively rendered subtree. -/
def renderBlock (spec : Option (String → Bool)) (nset eset : List String)
    (rel pfx : String) (n : Nat) : Nat × FSEntry → List String
  | (i, FSEntry.file nm _) =>
      [pfx ++ (if i = n - 1 then "└── " else "├── ") ++ nm]
  | (i, FSEntry.dir nm listing) =>
      (pfx ++ (if i = n - 1 then "└── " else "├── ") ++ nm) ::
        renderDir spec nset eset listing (joinRel rel nm)
          (pfx ++ (if i = n - 1 then "    " else "│   "))

theorem renderDir_none (spec : Option (String → Bool)) (nset eset : List String)
    (rel pfx : String) : renderDir spec nset eset none rel pfx = [] := by
  simp [renderDir]

theorem renderDir_some_eq (spec : Option (String → Bool)) (nset eset : List String)
    (entries : List FSEntry) (rel pfx : String) :
    renderDir spec nset eset (some entries) rel pfx =
      ((filteredEntries spec nset eset entries rel).enum.map
        (renderBlock spec nset eset rel pfx
          (filteredEntries spec nset eset entries rel).length)).flatten := by
  rw [renderDir]
  congr 1
  rw [← List.attach_map_val (filteredEntries spec nset eset entries rel).enum
    (renderBlock spec nset eset rel pfx (filteredEntries spec nset eset entries rel).length)]
  apply List.map_congr_left
  rintro ⟨⟨i, e⟩, h⟩ hmem
  cases e <;> rfl

theorem filteredEntries_sorted (spec : Option (String → Bool)) (nset eset : List String)
    (entries : List FSEntry) (rel : String) :
    List.Sorted entLE (filteredEntries spec nset eset entries rel) :=
  (List.sorted_insertionSort entLE entries).filter _

theorem filteredEntries_names_nodup (spec : Option (String → Bool))
    (nset eset : List String) (entries : List FSEntry) (rel : String)
    (hnd : (entries.map FSEntry.name).Nodup) :
    ((filteredEntries spec nset eset entries rel).map FSEntry.name).Nodup := by
  have hperm : List.Perm ((sortEntries entries).map FSEntry.name)
      (entries.map FSEntry.name) :=
    (List.perm_insertionSort entLE entries).map FSEntry.name
  have hsorted : ((sortEntries entries).map FSEntry.name).Nodup :=
    hperm.nodup_iff.mpr hnd
  have hsub : List.Sublist (filteredEntries spec nset eset entries rel)
      (sortEntries entries) :=
    List.filter_sublist _
  exact hsorted.sublist (hsub.map FSEntry.name)

/-- Claim C3: at every directory level of the tree listing, the surviving
children appear in strictly increasing lexicographic name order (given the
distinct names that a real directory listing provides), and the rendered
lines are exactly the concatenation, over the surviving children in that
order, of one line `prefix ++ connector ++ name` — connector `"└── "` for
the last surviving index and `"├── "` otherwise — followed, for a
directory, by its recursive rendering under the prefix extended with
`"    "` when it was last and `"│   "` otherwise (see `renderBlock`). -/
theorem tree_level_spec (spec : Option (String → Bool)) (nset eset : List String)
    (entries : List FSEntry) (rel pfx : String)
    (hnd : (entries.map FSEntry.name).Nodup) :
    List.Sorted (· < ·) ((filteredEntries spec nset eset entries rel).map FSEntry.name) ∧
    renderDir spec nset eset (some entries) rel pfx =
      ((filteredEntries spec nset eset entries rel).enum.map
        (renderBlock spec nset eset rel pfx
          (filteredEntries spec nset eset entries rel).length)).flatten := by
  refine ⟨?_, renderDir_some_eq spec nset eset entries rel pfx⟩
  have hle : List.Pairwise (fun a b => nameLE a b = true)
      ((filteredEntries spec nset eset entries rel).map FSEntry.name) :=
    List.pairwise_map.mpr (filteredEntries_sorted spec nset eset entries rel)
  have hnodup := filteredEntries_names_nodup spec nset eset entries rel hnd
  have hand := List.Pairwise.and hle hnodup
  exact hand.imp (fun h => nameLT_of_le_ne _ _ h.1 h.2)

/-- Witness for C3 at a concrete two-child directory (one subdirectory, one
file, listed unsorted): the theorem applies and its rendering equation can
be checked by evaluation. -/
theorem tree_level_spec_witness :
    ([FSEntry.file "b.txt" (Except.ok "hi"),
      FSEntry.dir "a" (some [FSEntry.file "c.txt" (Except.ok "x")])].map
        FSEntry.name).Nodup ∧
    (List.Sorted (· < ·) ((filteredEntries none [] []
        [FSEntry.file "b.txt" (Except.ok "hi"),
         FSEntry.dir "a" (some [FSEntry.file "c.txt" (Except.ok "x")])] "").map
          FSEntry.name) ∧
      renderDir none [] [] (some
        [FSEntry.file "b.txt" (Except.ok "hi"),
         FSEntry.dir "a" (some [FSEntry.file "c.txt" (Except.ok "x")])]) "" "" =
        ((filteredEntries none [] []
          [FSEntry.file "b.txt" (Except.ok "hi"),
           FSEntry.dir "a" (some [FSEntry.file "c.txt" (Except.ok "x")])] "").enum.map
            (renderBlock none [] [] "" ""
              (filteredEntries none [] []
                [FSEntry.file "b.txt" (Except.ok "hi"),
                 FSEntry.dir "a" (some [FSEntry.file "c.txt" (Except.ok "x")])] "").length)).flatten) :=
  ⟨by decide,
    tree_level_spec none [] []
      [FSEntry.file "b.txt" (Except.ok "hi"),
       FSEntry.dir "a" (some [FSEntry.file "c.txt" (Except.ok "x")])] "" ""
      (by decide)⟩

/-- Claim C8: when a directory's listing cannot be obtained (`os.listdir`
raises, modelled by a `none` listing), that subtree contributes zero lines
to the tree — the recursive call returns `[]` — and rendering continues
around it: at any level whose `i`-th surviving entry is such a directory,
the level's lines are exactly the blocks of the earlier siblings, then the
failed directory's single own line, then the blocks of the later siblings;
no failure escapes (the renderer is a total function). -/
theorem tree_listing_error (spec : Option (String → Bool)) (nset eset : List String)
    (rel pfx : String) :
    renderDir spec nset eset none rel pfx = [] ∧
    ∀ (entries : List FSEntry) (i : Nat) (nm : String),
      (filteredEntries spec nset eset entries rel)[i]? = some (FSEntry.dir nm none) →
      renderDir spec nset eset (some entries) rel pfx =
        (((filteredEntries spec nset eset entries rel).enum.map
            (renderBlock spec nset eset rel pfx
              (filteredEntries spec nset eset entries rel).length)).take i).flatten ++
          (pfx ++ (if i = (filteredEntries spec nset eset entries rel).length - 1
              then "└── " else "├── ") ++ nm) ::
          (((filteredEntries spec nset eset entries rel).enum.map
            (renderBlock spec nset eset rel pfx
              (filteredEntries spec nset eset entries rel).length)).drop (i + 1)).flatten := by
  refine ⟨renderDir_none spec nset eset rel pfx, ?_⟩
  intro entries i nm hget
  rw [renderDir_some_eq]
  have hbl : ((filteredEntries spec nset eset entries rel).enum.map
      (renderBlock spec nset eset rel pfx
        (filteredEntries spec nset eset entries rel).length))[i]? =
      some (renderBlock spec nset eset rel pfx
        (filteredEntries spec nset eset entries rel).length
        (i, FSEntry.dir nm none)) := by
    rw [List.getElem?_map, List.getElem?_enum, hget]
    rfl
  obtain ⟨hlen, helem⟩ := List.getElem?_eq_some_iff.mp hbl
  conv_lhs =>
    rw [← List.take_append_drop i ((filteredEntries spec nset eset entries rel).enum.map
      (renderBlock spec nset eset rel pfx
        (filteredEntries spec nset eset entries rel).length))]
  rw [List.flatten_append, List.drop_eq_getElem_cons hlen, List.flatten_cons, helem]
  have hrb : renderBlock spec nset eset rel pfx
      (filteredEntries spec nset eset entries rel).length (i, FSEntry.dir nm none) =
      [pfx ++ (if i = (filteredEntries spec nset eset entries rel).length - 1
          then "└── " else "├── ") ++ nm] := by
    show (pfx ++ (if i = (filteredEntries spec nset eset entries rel).length - 1
        then "└── " else "├── ") ++ nm) ::
      renderDir spec nset eset none (joinRel rel nm)
        (pfx ++ (if i = (filteredEntries spec nset eset entries rel).length - 1
          then "    " else "│   ")) = _
    rw [renderDir_none]
  rw [hrb]
  simp

/-- Witness for C8: a level with a readable subdirectory `"a"`, an
unlistable subdirectory `"b"` and a file `"c.txt"`; the unlistable `"b"`
(surviving index 1) contributes exactly one line. -/
theorem tree_listing_error_witness :
    (filteredEntries none [] []
        [FSEntry.dir "b" none,
         FSEntry.dir "a" (some [FSEntry.file "x" (Except.ok "1")]),
         FSEntry.file "c.txt" (Except.ok "2")] "")[1]? =
      some (FSEntry.dir "b" none) ∧
    renderDir none [] [] (some
        [FSEntry.dir "b" none,
         FSEntry.dir "a" (some [FSEntry.file "x" (Except.ok "1")]),
         FSEntry.file "c.txt" (Except.ok "2")]) "" "" =
      (((filteredEntries none [] []
          [FSEntry.dir "b" none,
           FSEntry.dir "a" (some [FSEntry.file "x" (Except.ok "1")]),
           FSEntry.file "c.txt" (Except.ok "2")] "").enum.map
            (renderBlock none [] [] "" ""
              (filteredEntries none [] []
                [FSEntry.dir "b" none,
                 FSEntry.dir "a" (some [FSEntry.file "x" (Except.ok "1")]),
                 FSEntry.file "c.txt" (Except.ok "2")] "").length)).take 1).flatten ++
        ("" ++ (if 1 = (filteredEntries none [] []
            [FSEntry.dir "b" none,
             FSEntry.dir "a" (some [FSEntry.file "x" (Except.ok "1")]),
             FSEntry.file "c.txt" (Except.ok "2")] "").length - 1
            then "└── " else "├── ") ++ "b") ::
        (((filteredEntries none [] []
          [FSEntry.dir "b" none,
           FSEntry.dir "a" (some [FSEntry.file "x" (Except.ok "1")]),
           FSEntry.file "c.txt" (Except.ok "2")] "").enum.map
            (renderBlock none [] [] "" ""
              (filteredEntries none [] []
                [FSEntry.dir "b" none,
                 FSEntry.dir "a" (some [FSEntry.file "x" (Except.ok "1")]),
                 FSEntry.file "c.txt" (Except.ok "2")] "").length)).drop 2).flatten := by
  constructor
  · rfl
  · exact (tree_listing_error none [] [] "" "").2
      [FSEntry.dir "b" none,
       FSEntry.dir "a" (some [FSEntry.file "x" (Except.ok "1")]),
       FSEntry.file "c.txt" (Except.ok "2")] 1 "b" (by rfl)

/-- One file section of the Output Document (`===== rel_path =====` plus a
fenced content block): recorded with its path both as the list of path
segments from the scan root and as the joined relative-path string, plus
the emitted file content. -/
structure OutSection where
  segs : List String
  rel_path : String
  content : String

/-- One diagnostic printed to the side channel (`print(f"Skipping file
{rel_path}, reason: {e}")`): the file's relative path and the underlying
reason. -/
structure Diag where
  rel_path : String
  reason : String

/-- Section produced by one directory entry in the per-file loop of `main`
(source lines 132-153): a successfully read file that is not ignored yields
a section; everything else yields none. -/
def fileSec (spec : Option (String → Bool)) (nset eset : List String)
    (rel : String) (segs : List String) : FSEntry → Option OutSection
  | FSEntry.file nm (Except.ok c) =>
      if should_ignore (joinRel rel nm) spec nset eset then none
      else some ⟨segs ++ [nm], joinRel rel nm, c⟩
  | _ => none

/-- Diagnostic produced by one directory entry in the per-file loop: a
non-ignored file whose read raises yields a diagnostic naming the file and
the reason; everything else yields none. -/
def fileDiag (spec : Option (String → Bool)) (nset eset : List String)
    (rel : String) : FSEntry → Option Diag
  | FSEntry.file nm (Except.error r) =>
      if should_ignore (joinRel rel nm) spec nset eset then none
      else some ⟨joinRel rel nm, r⟩
  | _ => none

/-- The `os.walk` pruning step `dirs[:] = [d for d in dirs if d not in
extra_ignore_files]` (source line 131): of a directory's entries, the
subdirectories whose *name* is not in the name set.  Note that this prune
consults only the name set, not the full `should_ignore` predicate. -/
def prunedDirs (nset : List String) (entries : List FSEntry) : List FSEntry :=
  entries.filter (fun e => e.isDir && !(nset.contains e.name))

theorem sizeOf_lt_of_mem_prunedDirs {nset : List String} {entries : List FSEntry}
    {nm : String} {listing : Option (List FSEntry)}
    (h : FSEntry.dir nm listing ∈ prunedDirs nset entries) :
    sizeOf listing < sizeOf (some entries : Option (List FSEntry)) := by
  have h₁ : FSEntry.dir nm listing ∈ entries := List.mem_of_mem_filter h
  have h₂ : sizeOf (FSEntry.dir nm listing) < sizeOf entries :=
    List.sizeOf_lt_of_mem h₁
  have h₃ : sizeOf listing < sizeOf (FSEntry.dir nm listing) := by
    simp only [FSEntry.dir.sizeOf_spec]
    omega
  have h₄ : sizeOf (some entries : Option (List FSEntry)) = 1 + sizeOf entries := by
    simp
  omega

/-- Embedding of the content-emission loop of `main` (source lines
129-153), which runs `os.walk(target_dir)` top-down: at each directory,
the subdirectory list is pruned *by name* against the name set, every file
of the directory is checked against `should_ignore` on its relative path
and then read — a successful read appends a section, a failed read appends
a diagnostic — and then the walk descends into each surviving
subdirectory.  The walk carries both the relative path string (as Python
builds it) and the segment list of that path. -/
def emitDir (spec : Option (String → Bool)) (nset eset : List String) :
    Option (List FSEntry) → String → List String → List OutSection × List Diag
  | none, _, _ => ([], [])
  | some entries, rel, segs =>
    let subs := (prunedDirs nset entries).attach.map (fun x =>
      match x with
      | ⟨FSEntry.dir nm listing, _⟩ =>
          emitDir spec nset eset listing (joinRel rel nm) (segs ++ [nm])
      | ⟨FSEntry.file _ _, _⟩ => ([], []))
    (entries.filterMap (fileSec spec nset eset rel segs) ++ (subs.map Prod.fst).flatten,
     entries.filterMap (fileDiag spec nset eset rel) ++ (subs.map Prod.snd).flatten)
termination_by listing _ _ => sizeOf listing
decreasing_by
  exact sizeOf_lt_of_mem_prunedDirs (by assumption)

/-- Walk contribution of one pruned child entry: recursion for a surviving
subdirectory (a file never occurs among `prunedDirs`). -/
def emitChild (spec : Option (String → Bool)) (nset eset : List String)
    (rel : String) (segs : List String) : FSEntry → List OutSection × List Diag
  | FSEntry.dir nm listing =>
      emitDir spec nset eset listing (joinRel rel nm) (segs ++ [nm])
  | FSEntry.file _ _ => ([], [])

theorem emitDir_none (spec : Option (String → Bool)) (nset eset : List String)
    (rel : String) (segs : List String) :
    emitDir spec nset eset none rel segs = ([], []) := by
  simp [emitDir]

theorem emitDir_some_eq (spec : Option (String → Bool)) (nset eset : List String)
    (entries : List FSEntry) (rel : String) (segs : List String) :
    emitDir spec nset eset (some entries) rel segs =
      (entries.filterMap (fileSec spec nset eset rel segs) ++
        (((prunedDirs nset entries).map (emitChild spec nset eset rel segs)).map
          Prod.fst).flatten,
       entries.filterMap (fileDiag spec nset eset rel) ++
        (((prunedDirs nset entries).map (emitChild spec nset eset rel segs)).map
          Prod.snd).flatten) := by
  rw [emitDir]
  have hmap : (prunedDirs nset entries).attach.map (fun x =>
      match x with
      | ⟨FSEntry.dir nm listing, _⟩ =>
          emitDir spec nset eset listing (joinRel rel nm) (segs ++ [nm])
      | ⟨FSEntry.file _ _, _⟩ => (([], []) : List OutSection × List Diag)) =
      (prunedDirs nset entries).map (emitChild spec nset eset rel segs) := by
    rw [← List.attach_map_val (prunedDirs nset entries)
      (emitChild spec nset eset rel segs)]
    apply List.map_congr_left
    rintro ⟨e, h⟩ hmem
    cases e <;> rfl
  rw [hmap]

theorem emitDir_fst_some (spec : Option (String → Bool)) (nset eset : List String)
    (entries : List FSEntry) (rel : String) (segs : List String) :
    (emitDir spec nset eset (some entries) rel segs).1 =
      entries.filterMap (fileSec spec nset eset rel segs) ++
        (((prunedDirs nset entries).map (emitChild spec nset eset rel segs)).map
          Prod.fst).flatten := by
  rw [emitDir_some_eq]

theorem emitDir_snd_some (spec : Option (String → Bool)) (nset eset : List String)
    (entries : List FSEntry) (rel : String) (segs : List String) :
    (emitDir spec nset eset (some entries) rel segs).2 =
      entries.filterMap (fileDiag spec nset eset rel) ++
        (((prunedDirs nset entries).map (emitChild spec nset eset rel segs)).map
          Prod.snd).flatten := by
  rw [emitDir_some_eq]

/-- Claim C2 counterexample: a directory `"foo.log"` satisfies the Ignore
Predicate (extension set `[".log"]`), yet the walk still descends into it
and emits the file `"foo.log/a.txt"` underneath it — because the `os.walk`
prune consults only the name set, not the full predicate. -/
theorem walk_descends_into_ignored_dir :
    should_ignore "foo.log" none [] [".log"] = true ∧
    (emitDir none [] [".log"]
        (some [FSEntry.dir "foo.log" (some [FSEntry.file "a.txt" (Except.ok "hi")])])
        "" []).1 =
      [⟨["foo.log", "a.txt"], "foo.log/a.txt", "hi"⟩] := by
  constructor
  · rfl
  · simp +decide [emitDir_some_eq, emitDir_none, emitChild, prunedDirs, fileSec,
      fileDiag, should_ignore, strEndsWith, basename, basenameAux, joinRel,
      matcherHits, FSEntry.isDir, FSEntry.name]

theorem fileSec_eq_some {spec : Option (String → Bool)} {nset eset : List String}
    {rel : String} {segs : List String} {e : FSEntry} {sec : OutSection} :
    fileSec spec nset eset rel segs e = some sec ↔
    ∃ nm c, e = FSEntry.file nm (Except.ok c) ∧
      should_ignore (joinRel rel nm) spec nset eset = false ∧
      sec = ⟨segs ++ [nm], joinRel rel nm, c⟩ := by
  constructor
  · intro h
    cases e with
    | file nm res =>
      cases res with
      | ok c =>
        simp only [fileSec] at h
        by_cases hig : should_ignore (joinRel rel nm) spec nset eset = true
        · rw [if_pos hig] at h
          exact absurd h (by simp)
        · rw [if_neg hig] at h
          refine ⟨nm, c, rfl, by revert hig; cases should_ignore (joinRel rel nm) spec nset eset <;> simp, ?_⟩
          exact (Option.some_inj.mp h).symm
      | error r => simp [fileSec] at h
    | dir nm l => simp [fileSec] at h
  · rintro ⟨nm, c, rfl, hig, rfl⟩
    simp [fileSec, hig]

theorem fileDiag_eq_some {spec : Option (String → Bool)} {nset eset : List String}
    {rel : String} {e : FSEntry} {d : Diag} :
    fileDiag spec nset eset rel e = some d ↔
    ∃ nm r, e = FSEntry.file nm (Except.error r) ∧
      should_ignore (joinRel rel nm) spec nset eset = false ∧
      d = ⟨joinRel rel nm, r⟩ := by
  constructor
  · intro h
    cases e with
    | file nm res =>
      cases res with
      | ok c => simp [fileDiag] at h
      | error r =>
        simp only [fileDiag] at h
        by_cases hig : should_ignore (joinRel rel nm) spec nset eset = true
        · rw [if_pos hig] at h
          exact absurd h (by simp)
        · rw [if_neg hig] at h
          refine ⟨nm, r, rfl, by revert hig; cases should_ignore (joinRel rel nm) spec nset eset <;> simp, ?_⟩
          exact (Option.some_inj.mp h).symm
    | dir nm l => simp [fileDiag] at h
  · rintro ⟨nm, r, rfl, hig, rfl⟩
    simp [fileDiag, hig]

theorem emit_sections_shape (spec : Option (String → Bool)) (nset eset : List String) :
    ∀ (fuel : Nat) (listing : Option (List FSEntry)) (rel : String) (segs : List String),
      sizeOf listing ≤ fuel →
      ∀ sec ∈ (emitDir spec nset eset listing rel segs).1,
        ∃ rest, sec.segs = segs ++ rest ∧ rest ≠ [] ∧
          ∀ x ∈ rest.dropLast, nset.contains x = false := by
  intro fuel
  induction fuel with
  | zero =>
    intro listing rel segs hsz
    cases listing with
    | none => intro sec hsec; rw [emitDir_none] at hsec; simp at hsec
    | some entries => exfalso; simp at hsz
  | succ k ih =>
    intro listing rel segs hsz sec hsec
    cases listing with
    | none => rw [emitDir_none] at hsec; simp at hsec
    | some entries =>
      rw [emitDir_some_eq] at hsec
      rcases List.mem_append.mp hsec with hfile | hsub
      · rcases List.mem_filterMap.mp hfile with ⟨e, _, hfe⟩
        rcases fileSec_eq_some.mp hfe with ⟨nm, c, _, _, hsecval⟩
        refine ⟨[nm], ?_, by simp, by simp⟩
        rw [hsecval]
      · rcases List.mem_flatten.mp hsub with ⟨secs', hsecs', hsec'⟩
        rcases List.mem_map.mp hsecs' with ⟨pair, hpair, hfst⟩
        rcases List.mem_map.mp hpair with ⟨d, hd, hchild⟩
        cases d with
        | file nm c =>
          rw [← hchild] at hfst
          rw [← hfst] at hsec'
          simp [emitChild] at hsec'
        | dir nm l =>
          have hname : nset.contains nm = false := by
            have hflt := (List.mem_filter.mp hd).2
            simp only [FSEntry.isDir, FSEntry.name, Bool.and_eq_true,
              Bool.not_eq_true'] at hflt
            exact hflt.2
          have hsz' : sizeOf l ≤ k := by
            have hlt := sizeOf_lt_of_mem_prunedDirs hd
            simp only [Option.some.sizeOf_spec] at hlt hsz
            omega
          have hsec'' : sec ∈ (emitDir spec nset eset l (joinRel rel nm)
              (segs ++ [nm])).1 := by
            rw [← hchild] at hfst
            rw [← hfst] at hsec'
            exact hsec'
          rcases ih l (joinRel rel nm) (segs ++ [nm]) hsz' sec hsec'' with
            ⟨rest, hr1, hr2, hr3⟩
          refine ⟨nm :: rest, by rw [hr1]; simp, by simp, ?_⟩
          intro x hx
          rw [List.dropLast_cons_of_ne_nil hr2] at hx
          rcases List.mem_cons.mp hx with hh | ht
          · rw [hh]; exact hname
          · exact hr3 x ht

/-- Claim C2 (amended): the content walk prunes subdirectories by *name-set
membership only* — so along every emitted section's path, every
intermediate directory name (every segment except the file's own name) lies
outside the Name Set.  Directories that only the extension set or the
pattern matcher would ignore are still descended into (see the
counterexample `walk_descends_into_ignored_dir`). -/
theorem walk_prunes_by_name (spec : Option (String → Bool)) (nset eset : List String)
    (entries : List FSEntry) (sec : OutSection)
    (hsec : sec ∈ (emitDir spec nset eset (some entries) "" []).1) :
    ∀ x ∈ sec.segs.dropLast, nset.contains x = false := by
  rcases emit_sections_shape spec nset eset (sizeOf (some entries : Option (List FSEntry)))
      (some entries) "" [] (le_refl _) sec hsec with ⟨rest, hr1, _, hr3⟩
  intro x hx
  apply hr3
  rw [hr1] at hx
  simpa using hx

/-- Witness for the amended C2: with name set `["skip"]`, the walk over a
tree containing `skip/inside.txt` and `keep/ok.txt` emits only
`keep/ok.txt`, whose single intermediate segment `"keep"` is outside the
name set. -/
theorem walk_prunes_by_name_witness :
    (⟨["keep", "ok.txt"], "keep/ok.txt", "k"⟩ : OutSection) ∈
      (emitDir none ["skip"] [] (some
        [FSEntry.dir "skip" (some [FSEntry.file "inside.txt" (Except.ok "s")]),
         FSEntry.dir "keep" (some [FSEntry.file "ok.txt" (Except.ok "k")])]) "" []).1 ∧
    ∀ x ∈ (["keep", "ok.txt"] : List String).dropLast, (["skip"] : List String).contains x = false := by
  have hmem : (emitDir none ["skip"] [] (some
      [FSEntry.dir "skip" (some [FSEntry.file "inside.txt" (Except.ok "s")]),
       FSEntry.dir "keep" (some [FSEntry.file "ok.txt" (Except.ok "k")])]) "" []).1 =
      [⟨["keep", "ok.txt"], "keep/ok.txt", "k"⟩] := by
    simp +decide [emitDir_some_eq, emitDir_none, emitChild, prunedDirs, fileSec,
      fileDiag, should_ignore, strEndsWith, basename, basenameAux, joinRel,
      matcherHits, FSEntry.isDir, FSEntry.name]
  have hm : (⟨["keep", "ok.txt"], "keep/ok.txt", "k"⟩ : OutSection) ∈
      (emitDir none ["skip"] [] (some
        [FSEntry.dir "skip" (some [FSEntry.file "inside.txt" (Except.ok "s")]),
         FSEntry.dir "keep" (some [FSEntry.file "ok.txt" (Except.ok "k")])]) "" []).1 := by
    rw [hmem]
    exact List.mem_singleton.mpr rfl
  refine ⟨hm, ?_⟩
  exact walk_prunes_by_name none ["skip"] []
    [FSEntry.dir "skip" (some [FSEntry.file "inside.txt" (Except.ok "s")]),
     FSEntry.dir "keep" (some [FSEntry.file "ok.txt" (Except.ok "k")])]
    ⟨["keep", "ok.txt"], "keep/ok.txt", "k"⟩ hm

/-- Claim C4: a file whose read or decode fails (an `Except.error` content)
never aborts the run and leaves no trace in the Output Document — the
emitted section list is exactly the one of the same tree with the failing
file removed — while a diagnostic naming the file's relative path and the
underlying reason is appended to the side channel (the diagnostic list,
which is disjoint from the Output Document by construction).  Stated for a
failing file at an arbitrary position of an arbitrary directory listing;
every file the walk reads occurs this way. -/
theorem emit_read_error (spec : Option (String → Bool)) (nset eset : List String)
    (rel : String) (segs : List String) (L₁ L₂ : List FSEntry) (nm r : String)
    (hni : should_ignore (joinRel rel nm) spec nset eset = false) :
    (emitDir spec nset eset
        (some (L₁ ++ FSEntry.file nm (Except.error r) :: L₂)) rel segs).1 =
      (emitDir spec nset eset (some (L₁ ++ L₂)) rel segs).1 ∧
    (⟨joinRel rel nm, r⟩ : Diag) ∈
      (emitDir spec nset eset
        (some (L₁ ++ FSEntry.file nm (Except.error r) :: L₂)) rel segs).2 := by
  have hpr : prunedDirs nset (L₁ ++ FSEntry.file nm (Except.error r) :: L₂) =
      prunedDirs nset (L₁ ++ L₂) := by
    unfold prunedDirs
    rw [List.filter_append, List.filter_append, List.filter_cons]
    simp [FSEntry.isDir]
  constructor
  · rw [emitDir_some_eq, emitDir_some_eq]
    have h₁ : List.filterMap (fileSec spec nset eset rel segs)
        (L₁ ++ FSEntry.file nm (Except.error r) :: L₂) =
        List.filterMap (fileSec spec nset eset rel segs) (L₁ ++ L₂) := by
      rw [List.filterMap_append, List.filterMap_append, List.filterMap_cons]
      have hnone : fileSec spec nset eset rel segs
          (FSEntry.file nm (Except.error r)) = none := by
        simp [fileSec]
      rw [hnone]
    rw [h₁, hpr]
  · rw [emitDir_some_eq]
    refine List.mem_append.mpr (Or.inl ?_)
    refine List.mem_filterMap.mpr
      ⟨FSEntry.file nm (Except.error r), by simp, ?_⟩
    exact fileDiag_eq_some.mpr ⟨nm, r, rfl, hni, rfl⟩

/-- Witness for C4: a tree with a readable `good.txt` and an unreadable
`bad.txt`; removing `bad.txt` leaves the section list unchanged and the
diagnostic names `bad.txt` with its reason. -/
theorem emit_read_error_witness :
    should_ignore (joinRel "" "bad.txt") none [] [] = false ∧
    ((emitDir none [] []
        (some ([FSEntry.file "good.txt" (Except.ok "g")] ++
          FSEntry.file "bad.txt" (Except.error "boom") :: [])) "" []).1 =
      (emitDir none [] []
        (some ([FSEntry.file "good.txt" (Except.ok "g")] ++ [])) "" []).1 ∧
    (⟨joinRel "" "bad.txt", "boom"⟩ : Diag) ∈
      (emitDir none [] []
        (some ([FSEntry.file "good.txt" (Except.ok "g")] ++
          FSEntry.file "bad.txt" (Except.error "boom") :: [])) "" []).2) :=
  ⟨rfl, emit_read_error none [] [] "" []
    [FSEntry.file "good.txt" (Except.ok "g")] [] "bad.txt" "boom" rfl⟩

theorem basenameAux_append_slash :
    ∀ (xs : List Char) (acc ys : List Char),
      basenameAux (xs ++ '/' :: ys) acc = basenameAux ys []
  | [], acc, ys => by simp [basenameAux]
  | c :: cs, acc, ys => by
    by_cases hc : c = '/'
    · subst hc
      simp only [List.cons_append, basenameAux, if_pos rfl]
      exact basenameAux_append_slash cs [] ys
    · simp only [List.cons_append, basenameAux, if_neg hc]
      exact basenameAux_append_slash cs (acc ++ [c]) ys

theorem basename_joinRel (r n : String) : basename (joinRel r n) = basename n := by
  unfold joinRel
  by_cases hr : r = ""
  · rw [if_pos hr]
  · rw [if_neg hr]
    unfold basename
    congr 1
    have hdata : (r ++ "/" ++ n).data = r.data ++ '/' :: n.data := by
      rw [String.data_append, String.data_append]
      show r.data ++ ['/'] ++ n.data = r.data ++ '/' :: n.data
      rw [List.append_assoc]
      rfl
    rw [hdata]
    exact basenameAux_append_slash r.data [] n.data

theorem should_ignore_of_basename (p : String) (spec : Option (String → Bool))
    (nset eset : List String) (h : nset.contains (basename p) = true) :
    should_ignore p spec nset eset = true := by
  rw [should_ignore_eq_or, h]
  rfl

theorem should_ignore_joinRel_git (rel : String) (spec : Option (String → Bool))
    (nset eset : List String) (hg : ".git" ∈ nset) :
    should_ignore (joinRel rel ".git") spec nset eset = true := by
  apply should_ignore_of_basename
  rw [basename_joinRel]
  have hb : basename ".git" = ".git" := rfl
  rw [hb]
  exact (contains_true_iff nset ".git").mpr hg

theorem emit_no_git_aux (spec : Option (String → Bool)) (nset eset : List String)
    (hg : ".git" ∈ nset) :
    ∀ (fuel : Nat) (listing : Option (List FSEntry)) (rel : String) (segs : List String),
      sizeOf listing ≤ fuel → ".git" ∉ segs →
      ∀ sec ∈ (emitDir spec nset eset listing rel segs).1, ".git" ∉ sec.segs := by
  intro fuel
  induction fuel with
  | zero =>
    intro listing rel segs hsz
    cases listing with
    | none => intro _ sec hsec; rw [emitDir_none] at hsec; simp at hsec
    | some entries => exfalso; simp at hsz
  | succ k ih =>
    intro listing rel segs hsz hsegs sec hsec
    cases listing with
    | none => rw [emitDir_none] at hsec; simp at hsec
    | some entries =>
      rw [emitDir_some_eq] at hsec
      rcases List.mem_append.mp hsec with hfile | hsub
      · rcases List.mem_filterMap.mp hfile with ⟨e, _, hfe⟩
        rcases fileSec_eq_some.mp hfe with ⟨nm, c, _, hig, hsecval⟩
        have hnm : nm ≠ ".git" := by
          intro hnm
          subst hnm
          rw [should_ignore_joinRel_git rel spec nset eset hg] at hig
          exact absurd hig (by simp)
        rw [hsecval]
        intro hmem
        rcases List.mem_append.mp hmem with h | h
        · exact hsegs h
        · rcases List.mem_singleton.mp h with h
          exact hnm h.symm
      · rcases List.mem_flatten.mp hsub with ⟨secs', hsecs', hsec'⟩
        rcases List.mem_map.mp hsecs' with ⟨pair, hpair, hfst⟩
        rcases List.mem_map.mp hpair with ⟨d, hd, hchild⟩
        cases d with
        | file nm c =>
          rw [← hchild] at hfst
          rw [← hfst] at hsec'
          simp [emitChild] at hsec'
        | dir nm l =>
          have hname : nset.contains nm = false := by
            have hflt := (List.mem_filter.mp hd).2
            simp only [FSEntry.isDir, FSEntry.name, Bool.and_eq_true,
              Bool.not_eq_true'] at hflt
            exact hflt.2
          have hnm : nm ≠ ".git" := by
            intro hnm
            subst hnm
            rw [(contains_true_iff nset ".git").mpr hg] at hname
            exact absurd hname (by simp)
          have hsz' : sizeOf l ≤ k := by
            have hlt := sizeOf_lt_of_mem_prunedDirs hd
            simp only [Option.some.sizeOf_spec] at hlt hsz
            omega
          have hsegs' : ".git" ∉ segs ++ [nm] := by
            intro hmem
            rcases List.mem_append.mp hmem with h | h
            · exact hsegs h
            · exact hnm (List.mem_singleton.mp h).symm
          have hsec'' : sec ∈ (emitDir spec nset eset l (joinRel rel nm)
              (segs ++ [nm])).1 := by
            rw [← hchild] at hfst
            rw [← hfst] at hsec'
            exact hsec'
          exact ih l (joinRel rel nm) (segs ++ [nm]) hsz' hsegs' sec hsec''

/-- Claim C9: once `".git"` is in the name set, every entry whose basename
is `".git"` — at any depth, file or directory — satisfies the Ignore
Predicate and is excluded: `should_ignore` holds on any relative path with
final segment `".git"`, no `".git"`-named entry survives the tree filter at
any level, and no emitted section's path passes through or ends in a
`".git"` segment. -/
theorem git_name_always_excluded (nset : List String) (hg : ".git" ∈ nset) :
    (∀ (rel : String) (spec : Option (String → Bool)) (eset : List String),
      should_ignore (joinRel rel ".git") spec nset eset = true) ∧
    (∀ (spec : Option (String → Bool)) (eset : List String)
      (entries : List FSEntry) (rel : String),
      ∀ e ∈ filteredEntries spec nset eset entries rel, e.name ≠ ".git") ∧
    (∀ (spec : Option (String → Bool)) (eset : List String)
      (listing : Option (List FSEntry)) (rel : String) (segs : List String),
      ".git" ∉ segs →
      ∀ sec ∈ (emitDir spec nset eset listing rel segs).1, ".git" ∉ sec.segs) := by
  refine ⟨fun rel spec eset => should_ignore_joinRel_git rel spec nset eset hg, ?_, ?_⟩
  · intro spec eset entries rel e he hnm
    have hkeep := (List.mem_filter.mp he).2
    rw [hnm] at hkeep
    rw [should_ignore_joinRel_git rel spec nset eset hg] at hkeep
    exact absurd hkeep (by simp)
  · intro spec eset listing rel segs hsegs sec hsec
    exact emit_no_git_aux spec nset eset hg (sizeOf listing) listing rel segs
      (le_refl _) hsegs sec hsec

/-- Witness for C9: with the concrete name set `[".git"]`, the membership
hypothesis holds and the exclusion properties follow. -/
theorem git_name_always_excluded_witness :
    ".git" ∈ ([".git"] : List String) ∧
    ((∀ (rel : String) (spec : Option (String → Bool)) (eset : List String),
      should_ignore (joinRel rel ".git") spec [".git"] eset = true) ∧
    (∀ (spec : Option (String → Bool)) (eset : List String)
      (entries : List FSEntry) (rel : String),
      ∀ e ∈ filteredEntries spec [".git"] eset entries rel, e.name ≠ ".git") ∧
    (∀ (spec : Option (String → Bool)) (eset : List String)
      (listing : Option (List FSEntry)) (rel : String) (segs : List String),
      ".git" ∉ segs →
      ∀ sec ∈ (emitDir spec [".git"] eset listing rel segs).1, ".git" ∉ sec.segs)) :=
  ⟨by decide, git_name_always_excluded [".git"] (by decide)⟩

/-- Detection and auto-ignoring of the version-control metadata directory
(source lines 69-71): when a directory named `.git` exists at the scan
root, `".git"` is added to the caller's name set. -/
def autoIgnoreFiles (entries : List FSEntry) (userN : List String) : List String :=
  if entries.any (fun e => e.isDir && (e.name == ".git")) then ".git" :: userN
  else userN

/-- Claim C7: when a `.git` directory exists at the Scan Root, it is
excluded from the tree listing (no surviving root entry is named `.git`,
so neither its line nor its subtree is rendered) and from the content
sections (no emitted section's path contains a `.git` segment, in
particular none lies under the root `.git` directory), with an arbitrary
caller-supplied name set — the caller never names `.git`. -/
theorem git_root_auto_excluded (spec : Option (String → Bool)) (eset userN : List String)
    (entries : List FSEntry)
    (hgit : entries.any (fun e => e.isDir && (e.name == ".git")) = true) :
    ".git" ∈ autoIgnoreFiles entries userN ∧
    (∀ e ∈ filteredEntries spec (autoIgnoreFiles entries userN) eset entries "",
      e.name ≠ ".git") ∧
    (∀ sec ∈ (emitDir spec (autoIgnoreFiles entries userN) eset
        (some entries) "" []).1, ".git" ∉ sec.segs) := by
  have hmem : ".git" ∈ autoIgnoreFiles entries userN := by
    unfold autoIgnoreFiles
    rw [if_pos hgit]
    exact List.mem_cons_self _ _
  refine ⟨hmem, ?_, ?_⟩
  · exact (git_name_always_excluded _ hmem).2.1 spec eset entries ""
  · exact (git_name_always_excluded _ hmem).2.2 spec eset (some entries) "" []
      (by simp)

/-- Witness for C7: a root containing a `.git` directory (itself holding a
config file) and a normal file; the hypothesis holds by evaluation. -/
theorem git_root_auto_excluded_witness :
    ([FSEntry.dir ".git" (some [FSEntry.file "config" (Except.ok "c")]),
      FSEntry.file "a.txt" (Except.ok "a")].any
        (fun e => e.isDir && (e.name == ".git")) = true) ∧
    (".git" ∈ autoIgnoreFiles
        [FSEntry.dir ".git" (some [FSEntry.file "config" (Except.ok "c")]),
         FSEntry.file "a.txt" (Except.ok "a")] [] ∧
    (∀ e ∈ filteredEntries none
        (autoIgnoreFiles
          [FSEntry.dir ".git" (some [FSEntry.file "config" (Except.ok "c")]),
           FSEntry.file "a.txt" (Except.ok "a")] []) []
        [FSEntry.dir ".git" (some [FSEntry.file "config" (Except.ok "c")]),
         FSEntry.file "a.txt" (Except.ok "a")] "",
      e.name ≠ ".git") ∧
    (∀ sec ∈ (emitDir none
        (autoIgnoreFiles
          [FSEntry.dir ".git" (some [FSEntry.file "config" (Except.ok "c")]),
           FSEntry.file "a.txt" (Except.ok "a")] []) []
        (some [FSEntry.dir ".git" (some [FSEntry.file "config" (Except.ok "c")]),
          FSEntry.file "a.txt" (Except.ok "a")]) "" []).1, ".git" ∉ sec.segs)) :=
  ⟨rfl, git_root_auto_excluded none [] []
    [FSEntry.dir ".git" (some [FSEntry.file "config" (Except.ok "c")]),
     FSEntry.file "a.txt" (Except.ok "a")] rfl⟩

/-- Triple recorded for every file entry the walk sees at one level: its
relative path, its segment path, and the result of attempting to read it. -/
def encTriple (rel : String) (segs : List String) :
    FSEntry → Option (String × List String × Except String String)
  | FSEntry.file nm res => some (joinRel rel nm, segs ++ [nm], res)
  | FSEntry.dir _ _ => none

/-- All files *encountered* by the `os.walk` traversal (after the name-set
prune of directories, before the `should_ignore` check on files and before
reading), with their relative paths, segment paths and read results. -/
def encFiles (nset : List String) :
    Option (List FSEntry) → String → List String →
      List (String × List String × Except String String)
  | none, _, _ => []
  | some entries, rel, segs =>
    entries.filterMap (encTriple rel segs) ++
    ((prunedDirs nset entries).attach.map (fun x =>
      match x with
      | ⟨FSEntry.dir nm listing, _⟩ =>
          encFiles nset listing (joinRel rel nm) (segs ++ [nm])
      | ⟨FSEntry.file _ _, _⟩ => [])).flatten
termination_by listing _ _ => sizeOf listing
decreasing_by
  exact sizeOf_lt_of_mem_prunedDirs (by assumption)

/-- Encountered files below one pruned child entry. -/
def encChild (nset : List String) (rel : String) (segs : List String) :
    FSEntry → List (String × List String × Except String String)
  | FSEntry.dir nm listing => encFiles nset listing (joinRel rel nm) (segs ++ [nm])
  | FSEntry.file _ _ => []

theorem encFiles_none (nset : List String) (rel : String) (segs : List String) :
    encFiles nset none rel segs = [] := by
  simp [encFiles]

theorem encFiles_some_eq (nset : List String) (entries : List FSEntry)
    (rel : String) (segs : List String) :
    encFiles nset (some entries) rel segs =
      entries.filterMap (encTriple rel segs) ++
      ((prunedDirs nset entries).map (encChild nset rel segs)).flatten := by
  rw [encFiles]
  congr 1
  congr 1
  rw [← List.attach_map_val (prunedDirs nset entries) (encChild nset rel segs)]
  apply List.map_congr_left
  rintro ⟨e, h⟩ hmem
  cases e <;> rfl

/-- What the per-file loop of `main` does with one encountered file: keep a
section when the read succeeded and the relative path is not ignored. -/
def keepSection (spec : Option (String → Bool)) (nset eset : List String) :
    String × List String × Except String String → Option OutSection
  | (p, sg, Except.ok c) =>
      if should_ignore p spec nset eset then none else some ⟨sg, p, c⟩
  | (_, _, Except.error _) => none

/-- Final-segment lookup: the read result of the file named `n`, if this
entry is it. -/
def fLevel (n : String) : FSEntry → Option (Except String String)
  | FSEntry.file nm c => if nm = n then some c else none
  | FSEntry.dir _ _ => none

/-- Intermediate-segment lookup: descend into the listable directory named
`n` with the continuation `rec`, if this entry is it. -/
def fDescend (n : String) (rec : List FSEntry → Option (Except String String)) :
    FSEntry → Option (Except String String)
  | FSEntry.dir nm (some cs) => if nm = n then rec cs else none
  | _ => none

/-- Look up a file in the modelled tree by its path segments: descend
through directories by name, and at the final segment return the read
result of the file of that name, if any. -/
def fileAt : List String → List FSEntry → Option (Except String String)
  | [], _ => none
  | [n], es => es.findSome? (fLevel n)
  | n :: y :: t, es => es.findSome? (fDescend n (fileAt (y :: t)))

/-- Lookup through an optional listing (a failed listing holds no files). -/
def fileAtOpt (sg : List String) : Option (List FSEntry) → Option (Except String String)
  | none => none
  | some es => fileAt sg es

/-- The Python relative path of a segment path below a base: fold
`os.path.join` over the segments. -/
def pathOfSegs (r : String) (sg : List String) : String :=
  sg.foldl joinRel r

mutual

/-- Wellformedness of one entry, as real filesystems provide it: each
directory listing holds distinct names.  (Mutually recursive with
`wfList`.) -/
def wfEntry : FSEntry → Bool
  | FSEntry.file _ _ => true
  | FSEntry.dir _ none => true
  | FSEntry.dir _ (some cs) =>
      decide ((cs.map FSEntry.name).Nodup) && wfList cs

/-- Wellformedness of every entry of a listing. -/
def wfList : List FSEntry → Bool
  | [] => true
  | e :: t => wfEntry e && wfList t

end

/-- Wellformedness of a scanned tree: sibling names are distinct at every
level. -/
def wfEntries (l : List FSEntry) : Bool :=
  decide ((l.map FSEntry.name).Nodup) && wfList l

theorem wfList_of_mem {l : List FSEntry} {e : FSEntry}
    (hl : wfList l = true) (he : e ∈ l) : wfEntry e = true := by
  induction l with
  | nil => simp at he
  | cons a t ihl =>
    rw [wfList, Bool.and_eq_true] at hl
    rcases List.mem_cons.mp he with h | h
    · rw [h]; exact hl.1
    · exact ihl hl.2 h

theorem wfEntries_destruct {l : List FSEntry} (h : wfEntries l = true) :
    (l.map FSEntry.name).Nodup ∧
      ∀ nm cs, FSEntry.dir nm (some cs) ∈ l → wfEntries cs = true := by
  rw [wfEntries, Bool.and_eq_true, decide_eq_true_iff] at h
  refine ⟨h.1, ?_⟩
  intro nm cs hmem
  have he := wfList_of_mem h.2 hmem
  rw [wfEntry] at he
  exact he

theorem findSome?_keyed {β : Type} (f : FSEntry → Option β) (n : String)
    (honly : ∀ e, FSEntry.name e ≠ n → f e = none) :
    ∀ {es : List FSEntry}, ((es.map FSEntry.name).Nodup) →
      ∀ {d : FSEntry}, d ∈ es → FSEntry.name d = n → es.findSome? f = f d := by
  intro es
  induction es with
  | nil => intro _ d hd; simp at hd
  | cons a t iht =>
    intro hnd d hd hdn
    have hnd' : (t.map FSEntry.name).Nodup := (List.nodup_cons.mp (by simpa using hnd)).2
    have hhead : FSEntry.name a ∉ t.map FSEntry.name :=
      (List.nodup_cons.mp (by simpa using hnd)).1
    rcases List.mem_cons.mp hd with h | h
    · subst h
      rw [List.findSome?_cons]
      cases hfd : f d with
      | some b => rfl
      | none =>
        have hall : ∀ x ∈ t, f x = none := by
          intro x hx
          apply honly
          intro hxn
          apply hhead
          rw [hdn, ← hxn]
          exact List.mem_map_of_mem FSEntry.name hx
        rw [List.findSome?_eq_none_iff.mpr hall]
    · have han : FSEntry.name a ≠ n := by
        intro he
        apply hhead
        rw [he, ← hdn]
        exact List.mem_map_of_mem FSEntry.name h
      rw [List.findSome?_cons, honly a han]
      exact iht hnd' h hdn

theorem sections_eq_encFiles (spec : Option (String → Bool)) (nset eset : List String) :
    ∀ (fuel : Nat) (listing : Option (List FSEntry)) (rel : String) (segs : List String),
      sizeOf listing ≤ fuel →
      (emitDir spec nset eset listing rel segs).1 =
        (encFiles nset listing rel segs).filterMap (keepSection spec nset eset) := by
  intro fuel
  induction fuel with
  | zero =>
    intro listing rel segs hsz
    cases listing with
    | none => rw [emitDir_none, encFiles_none]; rfl
    | some entries => exfalso; simp at hsz
  | succ k ih =>
    intro listing rel segs hsz
    cases listing with
    | none => rw [emitDir_none, encFiles_none]; rfl
    | some entries =>
      rw [emitDir_fst_some, encFiles_some_eq, List.filterMap_append]
      congr 1
      · rw [List.filterMap_filterMap]
        have hfn : (fun e => (encTriple rel segs e).bind (keepSection spec nset eset)) =
            fileSec spec nset eset rel segs := by
          funext e
          cases e with
          | file nm res => cases res <;> rfl
          | dir nm l => rfl
        rw [hfn]
      · rw [List.filterMap_flatten, List.map_map, List.map_map]
        congr 1
        apply List.map_congr_left
        intro d hd
        cases d with
        | file nm c => rfl
        | dir nm l =>
          have hsz' : sizeOf l ≤ k := by
            have hlt := sizeOf_lt_of_mem_prunedDirs hd
            simp only [Option.some.sizeOf_spec] at hlt hsz
            omega
          show (emitDir spec nset eset l (joinRel rel nm) (segs ++ [nm])).1 =
            (encFiles nset l (joinRel rel nm) (segs ++ [nm])).filterMap
              (keepSection spec nset eset)
          exact ih l (joinRel rel nm) (segs ++ [nm]) hsz'

/-- Wellformedness through the optional listing of a directory. -/
def wfOpt : Option (List FSEntry) → Bool
  | none => true
  | some es => wfEntries es

theorem emit_sections_lookup (spec : Option (String → Bool)) (nset eset : List String) :
    ∀ (fuel : Nat) (listing : Option (List FSEntry)) (rel : String) (segs : List String),
      sizeOf listing ≤ fuel → wfOpt listing = true →
      ∀ sec ∈ (emitDir spec nset eset listing rel segs).1,
        fileAtOpt (sec.segs.drop segs.length) listing = some (Except.ok sec.content) ∧
        sec.rel_path = pathOfSegs rel (sec.segs.drop segs.length) ∧
        should_ignore sec.rel_path spec nset eset = false := by
  intro fuel
  induction fuel with
  | zero =>
    intro listing rel segs hsz
    cases listing with
    | none => intro _ sec hsec; rw [emitDir_none] at hsec; simp at hsec
    | some entries => exfalso; simp at hsz
  | succ k ih =>
    intro listing rel segs hsz hwf sec hsec
    cases listing with
    | none => rw [emitDir_none] at hsec; simp at hsec
    | some entries =>
      have hwf' : wfEntries entries = true := hwf
      obtain ⟨hnod, hchildwf⟩ := wfEntries_destruct hwf'
      rw [emitDir_fst_some] at hsec
      rcases List.mem_append.mp hsec with hfile | hsub
      · rcases List.mem_filterMap.mp hfile with ⟨e, hemem, hfe⟩
        rcases fileSec_eq_some.mp hfe with ⟨nm, c, hety, hig, hsecval⟩
        have hdrop : sec.segs.drop segs.length = [nm] := by
          rw [hsecval]
          exact List.drop_left segs [nm]
        rw [hdrop]
        refine ⟨?_, ?_, ?_⟩
        · show fileAt [nm] entries = some (Except.ok sec.content)
          have hkey := findSome?_keyed (fLevel nm) nm
            (by
              intro e' hne
              cases e' with
              | file nm' c' =>
                simp only [FSEntry.name] at hne
                simp [fLevel, hne]
              | dir nm' l' => rfl)
            hnod hemem (by rw [hety]; rfl)
          rw [hety] at hkey
          rw [fileAt, hkey, hsecval]
          simp [fLevel]
        · rw [hsecval]
          rfl
        · rw [hsecval]
          exact hig
      · rcases List.mem_flatten.mp hsub with ⟨secs', hsecs', hsec'⟩
        rcases List.mem_map.mp hsecs' with ⟨pair, hpair, hfst⟩
        rcases List.mem_map.mp hpair with ⟨d, hd, hchild⟩
        cases d with
        | file nm c =>
          rw [← hchild] at hfst
          rw [← hfst] at hsec'
          simp [emitChild] at hsec'
        | dir nm l =>
          have hdent : FSEntry.dir nm l ∈ entries := List.mem_of_mem_filter hd
          have hsec'' : sec ∈ (emitDir spec nset eset l (joinRel rel nm)
              (segs ++ [nm])).1 := by
            rw [← hchild] at hfst
            rw [← hfst] at hsec'
            exact hsec'
          cases l with
          | none => rw [emitDir_none] at hsec''; simp at hsec''
          | some cs =>
            have hcswf : wfEntries cs = true := hchildwf nm cs hdent
            have hsz' : sizeOf (some cs : Option (List FSEntry)) ≤ k := by
              have hlt := sizeOf_lt_of_mem_prunedDirs hd
              simp only [Option.some.sizeOf_spec] at hlt hsz ⊢
              omega
            rcases ih (some cs) (joinRel rel nm) (segs ++ [nm]) hsz' hcswf sec hsec''
              with ⟨hfa, hrp, hini⟩
            rcases emit_sections_shape spec nset eset
                (sizeOf (some cs : Option (List FSEntry))) (some cs)
                (joinRel rel nm) (segs ++ [nm]) (le_refl _) sec hsec''
              with ⟨rest, hr1, hr2, _⟩
            cases rest with
            | nil => exact absurd rfl hr2
            | cons y t =>
              have hdropfull : sec.segs.drop segs.length = nm :: y :: t := by
                rw [hr1, List.append_assoc]
                rw [List.drop_left segs ([nm] ++ y :: t)]
                rfl
              have hdropchild : sec.segs.drop (segs ++ [nm]).length = y :: t := by
                rw [hr1]
                exact List.drop_left (segs ++ [nm]) (y :: t)
              rw [hdropchild] at hfa hrp
              rw [hdropfull]
              refine ⟨?_, ?_, hini⟩
              · show fileAt (nm :: y :: t) entries = some (Except.ok sec.content)
                have hkey := findSome?_keyed (fDescend nm (fileAt (y :: t))) nm
                  (by
                    intro e' hne
                    cases e' with
                    | file nm' c' => rfl
                    | dir nm' l' =>
                      cases l' with
                      | none => rfl
                      | some cs' =>
                        simp only [FSEntry.name] at hne
                        simp [fDescend, hne])
                  hnod hdent rfl
                rw [fileAt, hkey]
                simp only [fDescend, if_pos rfl]
                exact hfa
              · rw [hrp]
                rfl

theorem nodup_filterMap_keyed {β γ : Type} (F : FSEntry → Option β) (key : β → γ)
    (tag : String → γ) (htag : Function.Injective tag)
    (hkey : ∀ a b, F a = some b → key b = tag (FSEntry.name a)) :
    ∀ l : List FSEntry, ((l.map FSEntry.name).Nodup) →
      ((l.filterMap F).map key).Nodup := by
  intro l
  induction l with
  | nil => simp
  | cons a t ihl =>
    intro hnd
    have hnd' : (t.map FSEntry.name).Nodup := (List.nodup_cons.mp (by simpa using hnd)).2
    have hhead : FSEntry.name a ∉ t.map FSEntry.name :=
      (List.nodup_cons.mp (by simpa using hnd)).1
    cases hF : F a with
    | none => rw [List.filterMap_cons_none hF]; exact ihl hnd'
    | some b =>
      rw [List.filterMap_cons_some hF, List.map_cons]
      apply List.nodup_cons.mpr
      refine ⟨?_, ihl hnd'⟩
      intro hmem
      rcases List.mem_map.mp hmem with ⟨b', hb', hkb⟩
      rcases List.mem_filterMap.mp hb' with ⟨a', ha', hFa'⟩
      have h1 := hkey a b hF
      have h2 := hkey a' b' hFa'
      apply hhead
      have htags : tag (FSEntry.name a) = tag (FSEntry.name a') := by
        rw [← h1, ← h2, hkb]
      rw [htag htags]
      exact List.mem_map_of_mem FSEntry.name ha'

theorem mem_child_secs_shape (spec : Option (String → Bool)) (nset eset : List String)
    {rel : String} {segs : List String} {nm : String} {l : Option (List FSEntry)}
    {b : List String}
    (hb : b ∈ ((emitDir spec nset eset l (joinRel rel nm) (segs ++ [nm])).1).map
      OutSection.segs) :
    ∃ rest, rest ≠ [] ∧ b = segs ++ nm :: rest := by
  rcases List.mem_map.mp hb with ⟨sec, hsec, hbs⟩
  rcases emit_sections_shape spec nset eset (sizeOf l) l (joinRel rel nm)
      (segs ++ [nm]) (le_refl _) sec hsec with ⟨rest, hr1, hr2, _⟩
  refine ⟨rest, hr2, ?_⟩
  rw [← hbs, hr1, List.append_assoc]
  rfl

theorem emit_sections_segs_nodup (spec : Option (String → Bool)) (nset eset : List String) :
    ∀ (fuel : Nat) (listing : Option (List FSEntry)) (rel : String) (segs : List String),
      sizeOf listing ≤ fuel → wfOpt listing = true →
      (((emitDir spec nset eset listing rel segs).1).map OutSection.segs).Nodup := by
  intro fuel
  induction fuel with
  | zero =>
    intro listing rel segs hsz
    cases listing with
    | none => intro _; rw [emitDir_none]; simp
    | some entries => exfalso; simp at hsz
  | succ k ih =>
    intro listing rel segs hsz hwf
    cases listing with
    | none => rw [emitDir_none]; simp
    | some entries =>
      have hwf' : wfEntries entries = true := hwf
      obtain ⟨hnod, hchildwf⟩ := wfEntries_destruct hwf'
      rw [emitDir_fst_some, List.map_append]
      have hprnod : ((prunedDirs nset entries).map FSEntry.name).Nodup := by
        apply hnod.sublist
        exact (List.filter_sublist entries).map FSEntry.name
      apply List.Nodup.append
      · apply nodup_filterMap_keyed (fileSec spec nset eset rel segs) OutSection.segs
          (fun nm => segs ++ [nm])
        · intro a b hab
          have := List.append_cancel_left hab
          simpa using this
        · intro a b hF
          rcases fileSec_eq_some.mp hF with ⟨nm, c, hety, _, hbval⟩
          rw [hbval, hety]
          rfl
        · exact hnod
      · rw [List.map_flatten, List.map_map, List.map_map]
        apply List.nodup_flatten.mpr
        constructor
        · intro l' hl'
          rcases List.mem_map.mp hl' with ⟨d, hd, hdl⟩
          cases d with
          | file nm c =>
            rw [← hdl]
            simp [emitChild]
          | dir nm l =>
            rw [← hdl]
            show ((emitDir spec nset eset l (joinRel rel nm) (segs ++ [nm])).1.map
              OutSection.segs).Nodup
            cases l with
            | none => rw [emitDir_none]; simp
            | some cs =>
              have hsz' : sizeOf (some cs : Option (List FSEntry)) ≤ k := by
                have hlt := sizeOf_lt_of_mem_prunedDirs hd
                simp only [Option.some.sizeOf_spec] at hlt hsz ⊢
                omega
              exact ih (some cs) (joinRel rel nm) (segs ++ [nm]) hsz'
                (hchildwf nm cs (List.mem_of_mem_filter hd))
        · apply List.pairwise_map.mpr
          have hpne : List.Pairwise (fun d₁ d₂ : FSEntry => d₁.name ≠ d₂.name)
              (prunedDirs nset entries) := List.pairwise_map.mp hprnod
          apply hpne.imp
          intro d₁ d₂ hne b hb₁ hb₂
          cases d₁ with
          | file nm c => simp [emitChild] at hb₁
          | dir nm₁ l₁ =>
            cases d₂ with
            | file nm c => simp [emitChild] at hb₂
            | dir nm₂ l₂ =>
              rcases mem_child_secs_shape spec nset eset hb₁ with ⟨r₁, _, he₁⟩
              rcases mem_child_secs_shape spec nset eset hb₂ with ⟨r₂, _, he₂⟩
              apply hne
              show nm₁ = nm₂
              have := List.append_cancel_left (he₁ ▸ he₂ ▸ rfl :
                segs ++ nm₁ :: r₁ = segs ++ nm₂ :: r₂)
              exact (List.cons_eq_cons.mp this).1
      · intro b hb₁ hb₂
        rcases List.mem_map.mp hb₁ with ⟨sec, hsec, hbs⟩
        rcases List.mem_filterMap.mp hsec with ⟨e, _, hfe⟩
        rcases fileSec_eq_some.mp hfe with ⟨nm, c, _, _, hsecval⟩
        have hlen₁ : b.length = segs.length + 1 := by
          rw [← hbs, hsecval]
          simp
        rw [List.map_flatten, List.map_map, List.map_map] at hb₂
        rcases List.mem_flatten.mp hb₂ with ⟨l', hl', hbl'⟩
        rcases List.mem_map.mp hl' with ⟨d, hd, hdl⟩
        cases d with
        | file nmf cf =>
          rw [← hdl] at hbl'
          simp [emitChild] at hbl'
        | dir nmd ld =>
          rw [← hdl] at hbl'
          rcases mem_child_secs_shape spec nset eset hbl' with ⟨r, hr, he⟩
          have hlen₂ : b.length = segs.length + 1 + r.length := by
            rw [he]
            simp
            omega
          have hrlen : r.length ≠ 0 := fun h0 => hr (List.length_eq_zero.mp h0)
          omega

/-- Claim C5: over a wellformed scanned tree (distinct sibling names at
every level, as a real filesystem guarantees), the Output Document contains
exactly one section per successfully-read, non-ignored file encountered by
the walk: the section list equals the encountered-file list filtered to
the successfully-read, non-ignored ones (`keepSection`); no path appears
as more than one section (the segment paths are `Nodup`); and every
emitted section's relative path corresponds to a real file under the Scan
Root holding exactly the emitted content, with a relative-path string that
is the join of its segments and that the Ignore Predicate does not
ignore. -/
theorem output_sections_spec (spec : Option (String → Bool)) (nset eset : List String)
    (entries : List FSEntry) (hwf : wfEntries entries = true) :
    (emitDir spec nset eset (some entries) "" []).1 =
      (encFiles nset (some entries) "" []).filterMap (keepSection spec nset eset) ∧
    (((emitDir spec nset eset (some entries) "" []).1).map OutSection.segs).Nodup ∧
    ∀ sec ∈ (emitDir spec nset eset (some entries) "" []).1,
      fileAt sec.segs entries = some (Except.ok sec.content) ∧
      sec.rel_path = pathOfSegs "" sec.segs ∧
      should_ignore sec.rel_path spec nset eset = false := by
  refine ⟨sections_eq_encFiles spec nset eset
      (sizeOf (some entries : Option (List FSEntry))) (some entries) "" [] (le_refl _),
    emit_sections_segs_nodup spec nset eset
      (sizeOf (some entries : Option (List FSEntry))) (some entries) "" []
      (le_refl _) hwf, ?_⟩
  intro sec hsec
  have hlk := emit_sections_lookup spec nset eset
    (sizeOf (some entries : Option (List FSEntry))) (some entries) "" []
    (le_refl _) hwf sec hsec
  simpa using hlk

/-- Witness for C5: a root with `a.txt` (readable), `b.log` (ignored by
extension) and a subdirectory `sub` holding `c.txt`; the wellformedness
hypothesis evaluates to true and the theorem applies. -/
theorem output_sections_spec_witness :
    wfEntries
      [FSEntry.file "a.txt" (Except.ok "hello"),
       FSEntry.file "b.log" (Except.ok "x"),
       FSEntry.dir "sub" (some [FSEntry.file "c.txt" (Except.ok "y")])] = true ∧
    ((emitDir none [] [".log"] (some
        [FSEntry.file "a.txt" (Except.ok "hello"),
         FSEntry.file "b.log" (Except.ok "x"),
         FSEntry.dir "sub" (some [FSEntry.file "c.txt" (Except.ok "y")])]) "" []).1 =
      (encFiles [] (some
        [FSEntry.file "a.txt" (Except.ok "hello"),
         FSEntry.file "b.log" (Except.ok "x"),
         FSEntry.dir "sub" (some [FSEntry.file "c.txt" (Except.ok "y")])]) "" []).filterMap
          (keepSection none [] [".log"]) ∧
    ((emitDir none [] [".log"] (some
        [FSEntry.file "a.txt" (Except.ok "hello"),
         FSEntry.file "b.log" (Except.ok "x"),
         FSEntry.dir "sub" (some [FSEntry.file "c.txt" (Except.ok "y")])]) "" []).1.map
          OutSection.segs).Nodup ∧
    ∀ sec ∈ (emitDir none [] [".log"] (some
        [FSEntry.file "a.txt" (Except.ok "hello"),
         FSEntry.file "b.log" (Except.ok "x"),
         FSEntry.dir "sub" (some [FSEntry.file "c.txt" (Except.ok "y")])]) "" []).1,
      fileAt sec.segs
        [FSEntry.file "a.txt" (Except.ok "hello"),
         FSEntry.file "b.log" (Except.ok "x"),
         FSEntry.dir "sub" (some [FSEntry.file "c.txt" (Except.ok "y")])] =
          some (Except.ok sec.content) ∧
      sec.rel_path = pathOfSegs "" sec.segs ∧
      should_ignore sec.rel_path none [] [".log"] = false) := by
  have hwf : wfEntries
      [FSEntry.file "a.txt" (Except.ok "hello"),
       FSEntry.file "b.log" (Except.ok "x"),
       FSEntry.dir "sub" (some [FSEntry.file "c.txt" (Except.ok "y")])] = true := by
    simp +decide [wfEntries, wfList, wfEntry]
  exact ⟨hwf, output_sections_spec none [] [".log"]
    [FSEntry.file "a.txt" (Except.ok "hello"),
     FSEntry.file "b.log" (Except.ok "x"),
     FSEntry.dir "sub" (some [FSEntry.file "c.txt" (Except.ok "y")])] hwf⟩

end CodeCollector
